import Mathlib

/-!
Verification of the map-coloring CSP solver (`submission.py`).

The embedding is a direct, executable translation of the source:

* Python `dict` (insertion-ordered, unique keys) is modelled by an
  association list `List (String × String)` with lookup of the first
  matching key, in-place update of an existing key, append of a new key,
  and deletion of the (unique) entry of a key.
* `neighbors_dict` is a `collections.defaultdict(list)`: reading a key
  yields its stored list, or `[]` for an absent key.  For the validator
  `check`, where (per claim C9) the insertion side effect of a missing
  read matters, the defaultdict read is modelled by `ddGet`, which also
  returns the possibly-extended table.  In the solver every table read is
  modelled by the pure `tableGet`; there a missing read only inserts an
  empty list, which changes no later read.
* `random.shuffle(sh_list)` (which permutes `csp.domains` in place, since
  `sh_list = csp.domains` aliases it) is modelled by applying `σ k` to the
  domains list, where `σ : Nat → List String → List String` is the stream
  of shuffle outcomes and `k` counts shuffle events in execution order.
  Universally quantified theorems assume each `σ k` permutes its input,
  which is exactly what `random.shuffle` guarantees.
* `CSP.__init__` sets `self.unassigned = variables` — the same list
  object, not a copy (line 182).  The search state therefore carries one
  list `unassigned`; the instance's `variables` member is that very list.
* The recursion of `backtrack` is modelled by the fuel-indexed step
  function `run` over a `Mode` that is either a fresh invocation of
  `backtrack` or the continuation of its `for color in sh_list` loop at
  index `i`.  The loop is indexed because Python's `for` iterates the
  live `csp.domains` object, which deeper recursive calls re-shuffle.
  `none` means fuel ran out; `btsFuel` is proved sufficient below.
* In `backtrack` line 107 the consistency test is
  `csp.constraints(country, color, neighbors_dict, assignment)` where
  `neighbors_dict` is the module-level global, NOT `csp.neighbors_dict`.
  `run` therefore takes two tables: `G` (the global, used in that test)
  and `T` (`csp.neighbors_dict`, used by `mrv`, `possible_values` and the
  forward-checking loop).
* `list.remove(x)` removes the first occurrence of `x` (`List.erase`);
  the `ValueError` it would raise on an absent element is unreachable in
  the states the solver produces, and `List.erase` is a no-op there.
-/

/-- Association-list lookup: first entry whose key matches, as Python
dict lookup `d[k]` (which raises `KeyError` when the result is `none`). -/
def alookup : List (String × String) → String → Option String
  | [], _ => none
  | (a, b) :: t, k => if a = k then some b else alookup t k

/-- Python `k in d` for a dict. -/
def dictMem (d : List (String × String)) (k : String) : Bool :=
  (alookup d k).isSome

/-- Python `d[k] = v`: update the existing entry in place, else append. -/
def dictInsert : List (String × String) → String → String → List (String × String)
  | [], k, v => [(k, v)]
  | (a, b) :: t, k, v => if a = k then (k, v) :: t else (a, b) :: dictInsert t k v

/-- Python `del d[k]`: drop the (first) entry with key `k`. -/
def dictErase : List (String × String) → String → List (String × String)
  | [], _ => []
  | (a, b) :: t, k => if a = k then t else (a, b) :: dictErase t k

/-- Keys of a dict, in insertion order. -/
def dKeys (d : List (String × String)) : List String :=
  d.map Prod.fst

/-- Neighbor table: the underlying storage of `defaultdict(list)`. -/
abbrev Table : Type := List (String × List String)

/-- Lookup in a neighbor table: stored list, or `[]` for an absent key
(the value a `defaultdict(list)` read yields). -/
def tableGet : Table → String → List String
  | [], _ => []
  | (a, l) :: t, k => if a = k then l else tableGet t k

/-- Read of `defaultdict(list)` including its side effect: a missing key
is inserted with value `[]`. Returns the value and the updated table. -/
def ddGet : Table → String → List String × Table
  | [], k => ([], [(k, [])])
  | (a, l) :: t, k =>
    if a = k then (l, (a, l) :: t)
    else
      let r := ddGet t k
      (r.1, (a, l) :: r.2)

/-- Source lines 39-51, `adjacent_c_constraint(count1, color,
neighbors_dict, assignment)`: `False` iff some neighbor of `count1` is
present in `assignment` with exactly `color`. -/
def adjacent_c_constraint (count1 color : String) (neighbors : Table)
    (assignment : List (String × String)) : Bool :=
  (tableGet neighbors count1).all fun country =>
    !(alookup assignment country == some color)

/-- Source lines 185-190, `CSP.possible_values(country, assignment)`:
start from a fresh copy of the domain and drop every value failing the
constraint (the copy-and-`remove` loop computes exactly this filter). -/
def possible_values (T : Table) (domains : List String) (country : String)
    (assignment : List (String × String)) : List String :=
  domains.filter fun v => adjacent_c_constraint country v T assignment

/-- Source lines 65-78, `mrv(csp, assignment)`: start from
`csp.unassigned[0]`, scan the whole unassigned list, keep the first
strict improvement of the legal-value count.  `none` only on an empty
unassigned list, where the source would raise `IndexError`. -/
def mrv (T : Table) (unassigned domains : List String)
    (assignment : List (String × String)) : Option String :=
  match unassigned with
  | [] => none
  | u0 :: _ =>
    some (unassigned.foldl
      (fun best v =>
        let c := (possible_values T domains v assignment).length
        if c < best.2 then (v, c) else best)
      (u0, (possible_values T domains u0 assignment).length)).1

/-- Mutable search state: the assignment dict and the `unassigned` list
(which, by the aliasing `self.unassigned = variables` at line 182, IS the
instance's `variables` member), plus `csp.domains` (re-ordered in place
by `random.shuffle` at line 103). -/
structure SState where
  assignment : List (String × String)
  unassigned : List String
  domains : List String
deriving DecidableEq, Repr

/-- Result of `backtrack`: a solution dict or the string `'Failure'`. -/
inductive BTResult where
  | success (a : List (String × String))
  | failure
deriving DecidableEq, Repr

/-- Control point of the interpreter: a fresh invocation of `backtrack`,
or the continuation of its color loop at index `i` after the country was
chosen.  `k` counts shuffle events. -/
inductive Mode where
  | call (k : Nat) (st : SState)
  | loop (country : String) (i : Nat) (k : Nat) (st : SState)
deriving DecidableEq, Repr

/-- The end-of-iteration cleanup of the color loop (lines 122-125):
`if country in assignment: del assignment[country];
csp.unassigned.append(country)`. -/
def cleanup (country : String) (st : SState) : SState :=
  if dictMem st.assignment country then
    { st with assignment := dictErase st.assignment country,
              unassigned := st.unassigned ++ [country] }
  else st

/-- Source lines 82-127, `backtrack(assignment, csp)`, as a fuel-indexed
interpreter.  `G` is the module-level `neighbors_dict` read by line 107;
`T` is `csp.neighbors_dict`, read by `mrv`, `possible_values` and the
forward-checking loop (line 112).  `σ k` is the outcome of the `k`-th
`random.shuffle`.  In `.loop` mode, each iteration re-reads the live
`st.domains` at index `i`, exactly as Python's `for color in sh_list`
does after deeper calls re-shuffled the shared list.  On a forward-check
dead end the source returns `'Failure'` directly (line 115), skipping the
cleanup — so does the model. -/
def run (σ : Nat → List String → List String) (G T : Table) :
    Nat → Mode → Option (BTResult × SState × Nat)
  | 0, _ => none
  | fuel + 1, .call k st =>
    if st.unassigned.isEmpty then some (.success st.assignment, st, k)
    else
      match mrv T st.unassigned st.domains st.assignment with
      | none => none
      | some country =>
        run σ G T fuel (.loop country 0 (k + 1) { st with domains := σ k st.domains })
  | fuel + 1, .loop country i k st =>
    match st.domains[i]? with
    | none => some (.failure, st, k)
    | some color =>
      if adjacent_c_constraint country color G st.assignment then
        let st1 : SState :=
          { assignment := dictInsert st.assignment country color,
            unassigned := st.unassigned.erase country,
            domains := st.domains }
        if (tableGet T country).any
            (fun neighbor =>
              (possible_values T st1.domains neighbor st1.assignment).length == 0) then
          some (.failure, st1, k)
        else
          match run σ G T fuel (.call k st1) with
          | none => none
          | some (.success a, st2, k2) => some (.success a, st2, k2)
          | some (.failure, st2, k2) =>
            run σ G T fuel (.loop country (i + 1) k2 (cleanup country st2))
      else
        run σ G T fuel (.loop country (i + 1) k (cleanup country st))

/-- Source lines 160-183: a problem instance.  The `constraints` member
is always `adjacent_c_constraint` in the program, so it is fixed in the
model; `self.unassigned = variables` (line 182) makes `variables` the
initial — and aliased — unassigned list. -/
structure CSP where
  /-- The `variables` member of the source (`variables` is reserved in
  Lean). -/
  vars : List String
  domains : List String
  neighbors_dict : Table

/-- Fuel sufficient for a full search (proved below): each recursive call
strictly shrinks `unassigned`, and each loop runs at most
`domains.length` iterations. -/
def btsFuel (csp : CSP) : Nat :=
  (csp.domains.length + 2) * csp.vars.length + 1

/-- Source lines 55-61, `bts(csp)`: run `backtrack({}, csp)`. -/
def bts (σ : Nat → List String → List String) (G : Table) (csp : CSP) :
    Option (BTResult × SState × Nat) :=
  run σ G csp.neighbors_dict (btsFuel csp)
    (.call 0 ⟨[], csp.vars, csp.domains⟩)

/-- The four exception classes of lines 10-27, plus the `KeyError` that
`result[country]` at line 145 would raise for a country missing from
`result` (reachable only for malformed neighbor tables). -/
inductive CheckErr where
  | assignmentError (country : String)
  | countryNotFound (country : String)
  | colorNotFound (color : String)
  | constraintViolation (country1 country2 : String)
  | keyError (country : String)
deriving DecidableEq, Repr

/-- The inner neighbor scan of `check` (lines 144-146): first neighbor of
`key` sharing `value`, as a constraint violation; a neighbor missing from
`result` is a `KeyError`. -/
def checkNbrs (result : List (String × String)) (key value : String) :
    List String → Option CheckErr
  | [] => none
  | country :: rest =>
    match alookup result country with
    | none => some (.keyError country)
    | some w => if w = value then some (.constraintViolation key country)
                else checkNbrs result key value rest

/-- The second loop of `check` (lines 136-146): per entry of `result`, in
dict order, test unknown country, unknown color, then that entry's
constraint violations.  Threads the neighbor table through the
defaultdict reads. -/
def checkItems (countries colors : List String) :
    List (String × String) → List (String × String) → Table → Option CheckErr × Table
  | _, [], neighbors => (none, neighbors)
  | result, (key, value) :: rest, neighbors =>
    if !(countries.contains key) then (some (.countryNotFound key), neighbors)
    else if !(colors.contains value) then (some (.colorNotFound value), neighbors)
    else
      let r := ddGet neighbors key
      match checkNbrs result key value r.1 with
      | some e => (some e, r.2)
      | none => checkItems countries colors result rest r.2

/-- Source lines 131-146, `check(result, countries, colors, neighbors)`:
first every country must be a key of `result` (else `AssignmentError`
naming it), then the per-entry loop.  The returned table is `neighbors`
after the defaultdict reads. -/
def check (result : List (String × String)) (countries colors : List String)
    (neighbors : Table) : Option CheckErr × Table :=
  match countries.find? (fun country => !(dictMem result country)) with
  | some country => (some (.assignmentError country), neighbors)
  | none => checkItems countries colors result result neighbors

/-- Source lines 31-32: the fixed country list. -/
def countries : List String :=
  ["Argentina", "Bolivia", "Brazil", "Chile", "Colombia", "Ecuador",
   "Falkland Islands", "Guyana", "Paraguay", "Peru", "Suriname", "Uruguay",
   "Venezuela"]

/-- Source line 35: the fixed color list. -/
def colors : List String := ["blue", "green", "red", "yellow"]

/-- Source lines 197-213: the module-level `neighbors_dict`, the global
that line 107 reads. -/
def neighbors_dict : Table :=
  [("Argentina", ["Bolivia", "Brazil", "Chile", "Paraguay", "Uruguay"]),
   ("Bolivia", ["Argentina", "Brazil", "Chile", "Paraguay", "Peru"]),
   ("Brazil", ["Argentina", "Bolivia", "Colombia", "Guyana", "Paraguay",
               "Peru", "Suriname", "Uruguay", "Venezuela"]),
   ("Chile", ["Argentina", "Bolivia", "Peru"]),
   ("Colombia", ["Brazil", "Ecuador", "Peru", "Venezuela"]),
   ("Ecuador", ["Colombia", "Peru"]),
   ("Falkland Islands", []),
   ("Guyana", ["Brazil", "Suriname", "Venezuela"]),
   ("Paraguay", ["Argentina", "Bolivia", "Brazil"]),
   ("Peru", ["Bolivia", "Brazil", "Chile", "Colombia", "Ecuador"]),
   ("Suriname", ["Brazil", "Guyana"]),
   ("Uruguay", ["Argentina", "Brazil"]),
   ("Venezuela", ["Brazil", "Colombia", "Guyana"])]

/-- Identity shuffle stream: one possible outcome of every
`random.shuffle` call. -/
def sigId : Nat → List String → List String := fun _ l => l

/-- A shuffle stream is lawful when every event permutes its input —
which is everything `random.shuffle` guarantees. -/
def SigPerm (σ : Nat → List String → List String) : Prop :=
  ∀ k l, (σ k l).Perm l

/-- Symmetry of a conflict table, the well-formedness the spec §3 expects
of instances: `b` conflicts `a` whenever `a` conflicts `b`. -/
def TableSymm (t : Table) : Prop :=
  ∀ a b, b ∈ tableGet t a → a ∈ tableGet t b

/-- Decidable check that a table is stored symmetric (only inspects
stored entries, so it is executable on concrete tables). -/
def tableSymmB (t : Table) : Bool :=
  t.all fun p => p.2.all fun b => (tableGet t b).contains p.1

/-- Key membership in a table. -/
def tableMem : Table → String → Bool
  | [], _ => false
  | (a, _) :: t, k => a == k || tableMem t k

/-- Decidable check that every stored neighbor belongs to `cs`. -/
def allValuesSubB (t : Table) (cs : List String) : Bool :=
  t.all fun p => p.2.all fun nb => cs.contains nb

/-- All total assignments of `doms`-values to `vars`, as dicts listing
`vars` in order.  Used to decide satisfiability of small instances. -/
def assignsAll : List String → List String → List (List (String × String))
  | [], _ => [[]]
  | v :: vs, doms =>
    (assignsAll vs doms).flatMap fun tail => doms.map fun c => (v, c) :: tail

/-- A dict is a proper coloring of table `t`: no entry shares its value
with a distinct neighbor present in the dict. -/
def validAssignB (t : Table) (a : List (String × String)) : Bool :=
  a.all fun p => (tableGet t p.1).all fun nb =>
    nb == p.1 || !(alookup a nb == some p.2)

/-- Decidable satisfiability of an instance: some total assignment is a
proper coloring. -/
def existsSolutionB (vars doms : List String) (t : Table) : Bool :=
  (assignsAll vars doms).any (validAssignB t)

/-- Success condition of the validator: every country assigned, every
entry a known country with a known color, and no neighbor of an entry
holds the entry's value. -/
def validCompleteB (result : List (String × String)) (cs cls : List String)
    (t : Table) : Bool :=
  cs.all (fun c => dictMem result c) &&
  result.all fun p => cs.contains p.1 && cls.contains p.2 &&
    (tableGet t p.1).all fun nb => !(alookup result nb == some p.2)

/-- First constraint violation in the strictly-ordered pass of the spec:
entries in dict order, each entry's neighbors in table order. -/
def checkSpecViol (result : List (String × String)) (neighbors : Table) :
    List (String × String) → Option CheckErr
  | [] => none
  | (key, value) :: rest =>
    match (tableGet neighbors key).find?
        (fun nb => alookup result nb == some value) with
    | some nb => some (.constraintViolation key nb)
    | none => checkSpecViol result neighbors rest

/-- Validator following the spec's §4.5 wording, for comparison with the
source's `check` in claim C5: perform check (1) — every variable has an
entry — completely, then check (2) — every key known, every value in the
domain — completely, and only then check (3) — constraint violations. -/
def checkSpecOrdered (result : List (String × String)) (cs cls : List String)
    (neighbors : Table) : Option CheckErr :=
  match cs.find? (fun country => !(dictMem result country)) with
  | some country => some (.assignmentError country)
  | none =>
    match result.find? (fun p => !(cs.contains p.1)) with
    | some p => some (.countryNotFound p.1)
    | none =>
      match result.find? (fun p => !(cls.contains p.2)) with
      | some p => some (.colorNotFound p.2)
      | none => checkSpecViol result neighbors result

/-- Instance of claim C1's failing input: two mutually conflicting
variables and a single color. -/
def tblAB : Table := [("A", ["B"]), ("B", ["A"])]

/-- Reversal shuffle stream: one possible outcome of every
`random.shuffle` call on lists of length ≥ 2. -/
def sigRev : Nat → List String → List String := fun _ l => l.reverse

/-- Instance of claim C2's failing input: one conflict-free variable. -/
def tblSolo : Table := [("A", [])]

/-- Conflict table of claim C3's failing input: five variables, edges
A-B, A-C, B-D, B-E, C-D, C-E, D-E (stored symmetric). -/
def tblC3 : Table :=
  [("A", ["B", "C"]), ("B", ["A", "D", "E"]), ("C", ["A", "D", "E"]),
   ("D", ["B", "C", "E"]), ("E", ["B", "C", "D"])]

/-- Swap of the first two elements — one possible outcome of
`random.shuffle` on any list. -/
def swapHead : List String → List String
  | a :: b :: t => b :: a :: t
  | l => l

/-- Shuffle outcomes of claim C3's failing run: identity everywhere
except a rotation at the third shuffle event and a transposition at the
fourth — each a genuine permutation `random.shuffle` can produce. -/
def sigC3 : Nat → List String → List String := fun k l =>
  if k = 2 then l.rotate 2 else if k = 3 then swapHead l else l

/-- Triangle of three mutually conflicting variables (claims C3/C7). -/
def tblTri : Table := [("A", ["B", "C"]), ("B", ["A", "C"]), ("C", ["A", "B"])]

/-- Conflict-free instance table over two real countries, different from
the module-level `neighbors_dict` (claim C10). -/
def tblNoConf : Table := [("Argentina", []), ("Bolivia", [])]

/-- Instance table over two variables unknown to the module-level
`neighbors_dict`, mutually conflicting (claim C4's counterexample). -/
def tblXY : Table := [("X", ["Y"]), ("Y", ["X"])]

/-- Triangle of three mutually conflicting variables unknown to the
module-level `neighbors_dict` (claim C7's counterexample). -/
def tblTriXYZ : Table :=
  [("X", ["Y", "Z"]), ("Y", ["X", "Z"]), ("Z", ["X", "Y"])]

/-- Input of claim C5's counterexample: a complete assignment whose first
entry already violates a constraint (Argentina and Bolivia share blue)
while a later entry carries the unknown color purple. -/
def resultMixed : List (String × String) :=
  [("Argentina", "blue"), ("Bolivia", "blue"), ("Brazil", "green"),
   ("Chile", "green"), ("Colombia", "red"), ("Ecuador", "blue"),
   ("Falkland Islands", "blue"), ("Guyana", "red"), ("Paraguay", "red"),
   ("Peru", "yellow"), ("Suriname", "purple"), ("Uruguay", "red"),
   ("Venezuela", "yellow")]

/-- A valid complete coloring of the real instance, used to witness the
silent-success behavior of the validator (claims C5, C9). -/
def resultValid : List (String × String) :=
  [("Argentina", "blue"), ("Bolivia", "green"), ("Brazil", "red"),
   ("Chile", "red"), ("Colombia", "green"), ("Ecuador", "red"),
   ("Falkland Islands", "blue"), ("Guyana", "green"), ("Paraguay", "yellow"),
   ("Peru", "blue"), ("Suriname", "blue"), ("Uruguay", "green"),
   ("Venezuela", "blue")]

/-! ### Generic minimum-fold, the shape of the `mrv` scan -/

/-- The scan pattern of `mrv`: fold the strict-improvement update over a
list, starting from a seed pair. -/
def minFold (f : String → Nat) (l : List String) (b : String × Nat) : String × Nat :=
  l.foldl (fun best v => if f v < best.2 then (v, f v) else best) b

/-- The legal-value count `len(csp.possible_values(v, assignment))` that
`mrv` minimizes. -/
def pvCount (T : Table) (domains : List String)
    (assignment : List (String × String)) (v : String) : Nat :=
  (possible_values T domains v assignment).length

/-- State of the mode a step works on. -/
def Mode.state : Mode → SState
  | .call _ st => st
  | .loop _ _ _ st => st

/-! ### The search invariant

Relative to the original variable list `V0` (a set: the claims quantify
over nodup variable lists), the original domain list `D0` and the table
`G` used by the commit-time consistency test of line 107. -/

structure InvS (G : Table) (V0 D0 : List String) (st : SState) : Prop where
  nodupU : st.unassigned.Nodup
  nodupK : (dKeys st.assignment).Nodup
  cover : ∀ v, v ∈ V0 ↔ (v ∈ dKeys st.assignment ∨ v ∈ st.unassigned)
  disj : ∀ v, v ∈ dKeys st.assignment → v ∉ st.unassigned
  vals : ∀ p, p ∈ st.assignment → p.2 ∈ D0
  domp : st.domains.Perm D0
  gcons : ∀ u v c, u ≠ v → v ∈ tableGet G u →
    alookup st.assignment u = some c → ¬ alookup st.assignment v = some c

/-- Precondition of a mode: the invariant, and in loop mode the chosen
country is a still-unassigned variable. -/
def ModePre (G : Table) (V0 D0 : List String) : Mode → Prop
  | .call _ st => InvS G V0 D0 st
  | .loop country _ _ st =>
    InvS G V0 D0 st ∧ country ∈ st.unassigned

/-! ### Dictionary lemmas -/

@[simp] theorem dKeys_nil : dKeys [] = [] := rfl

@[simp] theorem dKeys_cons (a b : String) (t : List (String × String)) :
    dKeys ((a, b) :: t) = a :: dKeys t := rfl

theorem alookup_eq_none_iff (d : List (String × String)) (k : String) :
    alookup d k = none ↔ k ∉ dKeys d := by
  induction d with
  | nil => simp [alookup]
  | cons p t ih =>
    obtain ⟨a, b⟩ := p
    by_cases h : a = k
    · subst h
      simp [alookup]
    · rw [alookup, if_neg h, dKeys_cons]
      simp only [List.mem_cons, not_or, ih]
      constructor
      · exact fun hk => ⟨fun h2 => h h2.symm, hk⟩
      · exact fun hk => hk.2

theorem alookup_isSome_iff (d : List (String × String)) (k : String) :
    (alookup d k).isSome = true ↔ k ∈ dKeys d := by
  rw [Option.isSome_iff_ne_none, not_iff_comm, ← alookup_eq_none_iff]

theorem alookup_mem (d : List (String × String)) (k v : String)
    (h : alookup d k = some v) : (k, v) ∈ d := by
  induction d with
  | nil => simp [alookup] at h
  | cons p t ih =>
    obtain ⟨a, b⟩ := p
    by_cases hak : a = k
    · subst hak
      rw [alookup, if_pos rfl] at h
      obtain rfl := Option.some_injective _ h
      exact List.mem_cons_self _ _
    · rw [alookup, if_neg hak] at h
      exact List.mem_cons_of_mem _ (ih h)

theorem alookup_dictInsert (d : List (String × String)) (k v x : String) :
    alookup (dictInsert d k v) x = if x = k then some v else alookup d x := by
  induction d with
  | nil =>
    by_cases h : x = k
    · subst h
      simp [dictInsert, alookup]
    · simp [dictInsert, alookup, h, Ne.symm h]
  | cons p t ih =>
    obtain ⟨a, b⟩ := p
    by_cases hak : a = k
    · subst hak
      by_cases hx : x = a
      · subst hx
        simp [dictInsert, alookup]
      · rw [dictInsert, if_pos rfl, alookup, if_neg (fun h2 : a = x => hx h2.symm),
          if_neg hx, alookup, if_neg (fun h2 : a = x => hx h2.symm)]
    · by_cases hax : a = x
      · subst hax
        rw [dictInsert, if_neg hak, alookup, if_pos rfl,
          if_neg (fun h2 : a = k => hak h2), alookup, if_pos rfl]
      · rw [dictInsert, if_neg hak, alookup, if_neg hax, ih, alookup, if_neg hax]

theorem dKeys_dictInsert_of_not_mem (d : List (String × String)) (k v : String)
    (h : k ∉ dKeys d) : dKeys (dictInsert d k v) = dKeys d ++ [k] := by
  induction d with
  | nil => simp [dictInsert]
  | cons p t ih =>
    obtain ⟨a, b⟩ := p
    rw [dKeys_cons] at h
    simp only [List.mem_cons, not_or] at h
    rw [dictInsert, if_neg (fun h2 : a = k => h.1 h2.symm), dKeys_cons, ih h.2,
      dKeys_cons, List.cons_append]

theorem mem_dictInsert (d : List (String × String)) (k v : String) (p : String × String)
    (h : p ∈ dictInsert d k v) : p ∈ d ∨ p = (k, v) := by
  induction d with
  | nil =>
    rw [dictInsert] at h
    right
    simpa using h
  | cons q t ih =>
    obtain ⟨a, b⟩ := q
    by_cases hak : a = k
    · subst hak
      rw [dictInsert, if_pos rfl] at h
      rcases List.mem_cons.1 h with h | h
      · right; exact h
      · left; exact List.mem_cons_of_mem _ h
    · rw [dictInsert, if_neg hak] at h
      rcases List.mem_cons.1 h with h | h
      · left; exact h ▸ List.mem_cons_self _ _
      · rcases ih h with h2 | h2
        · left; exact List.mem_cons_of_mem _ h2
        · right; exact h2

theorem dKeys_dictErase (d : List (String × String)) (k : String) :
    dKeys (dictErase d k) = (dKeys d).erase k := by
  induction d with
  | nil => simp [dictErase]
  | cons p t ih =>
    obtain ⟨a, b⟩ := p
    by_cases hak : a = k
    · subst hak
      rw [dictErase, if_pos rfl, dKeys_cons, List.erase_cons_head]
    · rw [dictErase, if_neg hak, dKeys_cons, dKeys_cons,
        List.erase_cons_tail, ih]
      simpa using hak

theorem mem_dictErase (d : List (String × String)) (k : String) (p : String × String)
    (h : p ∈ dictErase d k) : p ∈ d := by
  induction d with
  | nil => simp [dictErase] at h
  | cons q t ih =>
    obtain ⟨a, b⟩ := q
    by_cases hak : a = k
    · subst hak
      rw [dictErase, if_pos rfl] at h
      exact List.mem_cons_of_mem _ h
    · rw [dictErase, if_neg hak] at h
      rcases List.mem_cons.1 h with h | h
      · exact h ▸ List.mem_cons_self _ _
      · exact List.mem_cons_of_mem _ (ih h)

theorem alookup_dictErase (d : List (String × String)) (k : String)
    (hnd : (dKeys d).Nodup) (x : String) :
    alookup (dictErase d k) x = if x = k then none else alookup d x := by
  induction d with
  | nil => simp [dictErase, alookup]
  | cons p t ih =>
    obtain ⟨a, b⟩ := p
    rw [dKeys_cons, List.nodup_cons] at hnd
    by_cases hak : a = k
    · subst hak
      by_cases hx : x = a
      · subst hx
        rw [dictErase, if_pos rfl, if_pos rfl, alookup_eq_none_iff]
        exact hnd.1
      · rw [dictErase, if_pos rfl, if_neg hx, alookup,
          if_neg (fun h2 : a = x => hx h2.symm)]
    · by_cases hax : a = x
      · subst hax
        rw [dictErase, if_neg hak, alookup, if_pos rfl,
          if_neg (fun h2 : a = k => hak h2), alookup, if_pos rfl]
      · rw [dictErase, if_neg hak, alookup, if_neg hax, ih hnd.2, alookup, if_neg hax]

/-! ### Constraint and mrv lemmas -/

theorem adjacent_true_iff (count1 color : String) (G : Table)
    (assignment : List (String × String)) :
    adjacent_c_constraint count1 color G assignment = true ↔
      ∀ nb ∈ tableGet G count1, ¬ alookup assignment nb = some color := by
  simp [adjacent_c_constraint, List.all_eq_true]

theorem minFold_fst_mem (f : String → Nat) (l : List String) (b : String × Nat) :
    (minFold f l b).1 = b.1 ∨ (minFold f l b).1 ∈ l := by
  induction l generalizing b with
  | nil => left; rfl
  | cons v t ih =>
    by_cases hv : f v < b.2
    · have he : minFold f (v :: t) b = minFold f t (v, f v) := by
        simp only [minFold, List.foldl_cons, if_pos hv]
      rw [he]
      rcases ih (v, f v) with h | h
      · right
        rw [h]
        exact List.mem_cons_self _ _
      · right
        exact List.mem_cons_of_mem _ h
    · have he : minFold f (v :: t) b = minFold f t b := by
        simp only [minFold, List.foldl_cons, if_neg hv]
      rw [he]
      rcases ih b with h | h
      · left
        exact h
      · right
        exact List.mem_cons_of_mem _ h

theorem mrv_eq_minFold (T : Table) (u0 : String) (rest domains : List String)
    (assignment : List (String × String)) :
    mrv T (u0 :: rest) domains assignment =
      some (minFold (pvCount T domains assignment) (u0 :: rest)
        (u0, pvCount T domains assignment u0)).1 := rfl

theorem mrv_mem (T : Table) (u domains : List String)
    (assignment : List (String × String)) (x : String)
    (h : mrv T u domains assignment = some x) : x ∈ u := by
  match u with
  | [] => simp [mrv] at h
  | u0 :: rest =>
    rw [mrv_eq_minFold] at h
    obtain rfl := Option.some_injective _ h.symm
    rcases minFold_fst_mem (pvCount T domains assignment) (u0 :: rest)
      (u0, pvCount T domains assignment u0) with h2 | h2
    · rw [h2]; exact List.mem_cons_self _ _
    · exact h2

theorem mrv_eq_none_iff (T : Table) (u domains : List String)
    (assignment : List (String × String)) :
    mrv T u domains assignment = none ↔ u = [] := by
  cases u <;> simp [mrv]

/-! ### Invariant preservation -/

theorem inv_commit (G : Table) (V0 D0 : List String) (st : SState)
    (country color : String) (hsym : TableSymm G) (inv : InvS G V0 D0 st)
    (hmem : country ∈ st.unassigned)
    (hcons : adjacent_c_constraint country color G st.assignment = true)
    (hcol : color ∈ st.domains) :
    InvS G V0 D0 ⟨dictInsert st.assignment country color,
      st.unassigned.erase country, st.domains⟩ := by
  have hk : country ∉ dKeys st.assignment := fun h => inv.disj _ h hmem
  have hkeys : dKeys (dictInsert st.assignment country color)
      = dKeys st.assignment ++ [country] :=
    dKeys_dictInsert_of_not_mem _ _ _ hk
  have hcv : country ∈ V0 := (inv.cover country).mpr (Or.inr hmem)
  have hlook : ∀ x, alookup (dictInsert st.assignment country color) x
      = if x = country then some color else alookup st.assignment x :=
    alookup_dictInsert st.assignment country color
  have hadj := (adjacent_true_iff country color G st.assignment).mp hcons
  refine ⟨inv.nodupU.erase country, ?_, ?_, ?_, ?_, inv.domp, ?_⟩
  · rw [hkeys]
    apply List.Nodup.append inv.nodupK (List.nodup_singleton country)
    intro a ha h1
    rw [List.mem_singleton] at h1
    subst h1
    exact hk ha
  · intro v
    by_cases hv : v = country
    · subst hv
      constructor
      · intro _
        left
        rw [hkeys]
        exact List.mem_append_right _ (List.mem_cons_self _ _)
      · intro _
        exact hcv
    · rw [hkeys]
      constructor
      · intro h1
        rcases (inv.cover v).mp h1 with h2 | h2
        · exact Or.inl (List.mem_append_left _ h2)
        · exact Or.inr ((List.mem_erase_of_ne hv).mpr h2)
      · intro h1
        rcases h1 with h2 | h2
        · rcases List.mem_append.mp h2 with h3 | h3
          · exact (inv.cover v).mpr (Or.inl h3)
          · simp at h3
            exact absurd h3 hv
        · exact (inv.cover v).mpr (Or.inr (List.mem_of_mem_erase h2))
  · intro v h1 h2
    rw [hkeys] at h1
    have h3 := (inv.nodupU.mem_erase_iff).mp h2
    rcases List.mem_append.mp h1 with h4 | h4
    · exact inv.disj v h4 h3.2
    · simp at h4
      exact h3.1 h4
  · intro p hp
    rcases mem_dictInsert _ _ _ _ hp with h1 | h1
    · exact inv.vals p h1
    · rw [h1]
      exact inv.domp.mem_iff.mp hcol
  · intro u v c huv hv hu
    rw [hlook] at hu
    rw [hlook]
    by_cases huc : u = country
    · subst huc
      rw [if_pos rfl] at hu
      obtain rfl : color = c := Option.some_injective _ hu
      have hvc : ¬ v = u := fun h => huv h.symm
      rw [if_neg hvc]
      exact hadj v hv
    · rw [if_neg huc] at hu
      by_cases hvc : v = country
      · subst hvc
        rw [if_pos rfl]
        intro h1
        obtain rfl : color = c := Option.some_injective _ h1
        exact hadj u (hsym u v hv) hu
      · rw [if_neg hvc]
        exact inv.gcons u v c huv hv hu

theorem inv_cleanup (G : Table) (V0 D0 : List String) (st : SState)
    (country : String) (inv : InvS G V0 D0 st) (hcv : country ∈ V0) :
    InvS G V0 D0 (cleanup country st) ∧
      country ∈ (cleanup country st).unassigned ∧
      (cleanup country st).unassigned.length ≤ st.unassigned.length + 1 ∧
      (cleanup country st).domains = st.domains := by
  by_cases hm : dictMem st.assignment country = true
  · have hkm : country ∈ dKeys st.assignment := (alookup_isSome_iff _ _).mp hm
    have hcu : country ∉ st.unassigned := inv.disj _ hkm
    have hkeys : dKeys (dictErase st.assignment country)
        = (dKeys st.assignment).erase country := dKeys_dictErase _ _
    have hlook : ∀ x, alookup (dictErase st.assignment country) x
        = if x = country then none else alookup st.assignment x :=
      alookup_dictErase _ _ inv.nodupK
    have hcl : cleanup country st
        = { st with assignment := dictErase st.assignment country,
                    unassigned := st.unassigned ++ [country] } := by
      rw [cleanup, if_pos hm]
    rw [hcl]
    refine ⟨⟨?_, ?_, ?_, ?_, ?_, inv.domp, ?_⟩, ?_, ?_, rfl⟩
    · apply List.Nodup.append inv.nodupU (List.nodup_singleton country)
      intro a ha h1
      rw [List.mem_singleton] at h1
      subst h1
      exact hcu ha
    · rw [hkeys]
      exact inv.nodupK.erase country
    · intro v
      by_cases hv : v = country
      · subst hv
        constructor
        · intro _
          exact Or.inr (List.mem_append_right _ (List.mem_cons_self _ _))
        · intro _
          exact hcv
      · rw [hkeys]
        constructor
        · intro h1
          rcases (inv.cover v).mp h1 with h2 | h2
          · exact Or.inl ((List.mem_erase_of_ne hv).mpr h2)
          · exact Or.inr (List.mem_append_left _ h2)
        · intro h1
          rcases h1 with h2 | h2
          · exact (inv.cover v).mpr (Or.inl (List.mem_of_mem_erase h2))
          · rcases List.mem_append.mp h2 with h3 | h3
            · exact (inv.cover v).mpr (Or.inr h3)
            · simp at h3
              exact absurd h3 hv
    · intro v h1 h2
      rw [hkeys] at h1
      have h3 := (inv.nodupK.mem_erase_iff).mp h1
      rcases List.mem_append.mp h2 with h4 | h4
      · exact inv.disj v h3.2 h4
      · simp at h4
        exact h3.1 h4
    · intro p hp
      exact inv.vals p (mem_dictErase _ _ _ hp)
    · intro u v c huv hv hu
      rw [hlook] at hu
      rw [hlook]
      by_cases huc : u = country
      · rw [if_pos huc] at hu
        exact absurd hu (by simp)
      · rw [if_neg huc] at hu
        by_cases hvc : v = country
        · rw [if_pos hvc]
          simp
        · rw [if_neg hvc]
          exact inv.gcons u v c huv hv hu
    · exact List.mem_append_right _ (List.mem_cons_self _ _)
    · simp
  · have hcl : cleanup country st = st := by
      rw [cleanup, if_neg hm]
    rw [hcl]
    have hkm : country ∉ dKeys st.assignment := by
      intro h1
      exact hm ((alookup_isSome_iff _ _).mpr h1)
    have hcu : country ∈ st.unassigned := by
      rcases (inv.cover country).mp hcv with h1 | h1
      · exact absurd h1 hkm
      · exact h1
    exact ⟨inv, hcu, Nat.le_succ_of_le (Nat.le_refl _), rfl⟩

/-! ### The main induction: every step of the search preserves the
invariant, never grows the unassigned list, and returns success only
with an empty unassigned list and its own assignment. -/

theorem run_post (σ : Nat → List String → List String) (G T : Table)
    (V0 D0 : List String) (hσ : SigPerm σ) (hsym : TableSymm G) :
    ∀ fuel mode r st' k', ModePre G V0 D0 mode →
      run σ G T fuel mode = some (r, st', k') →
      InvS G V0 D0 st' ∧
        st'.unassigned.length ≤ mode.state.unassigned.length ∧
        (∀ a, r = .success a → a = st'.assignment ∧ st'.unassigned = []) := by
  intro fuel
  induction fuel with
  | zero =>
    intro mode r st' k' _ h
    simp [run] at h
  | succ fuel ih =>
    intro mode r st' k' pre hrun
    cases mode with
    | call k st =>
      simp only [run] at hrun
      split at hrun
      · simp only [Option.some.injEq, Prod.mk.injEq] at hrun
        obtain ⟨hr, hst, hk⟩ := hrun
        subst hst
        refine ⟨pre, Nat.le_refl _, ?_⟩
        intro a ha
        rw [← hr] at ha
        cases ha
        constructor
        · rfl
        · rename_i hemp
          exact List.isEmpty_iff.mp hemp
      · split at hrun
        · exact absurd hrun (by simp)
        · rename_i hemp country hm
          have hcm : country ∈ st.unassigned := mrv_mem T _ _ _ _ hm
          have pre4 : ModePre G V0 D0
              (.loop country 0 (k + 1) { st with domains := σ k st.domains }) := by
            refine ⟨⟨pre.nodupU, pre.nodupK, pre.cover, pre.disj, pre.vals,
              (hσ k st.domains).trans pre.domp, pre.gcons⟩, hcm⟩
          exact ih (.loop country 0 (k + 1) { st with domains := σ k st.domains })
            r st' k' pre4 hrun
    | loop country i k st =>
      obtain ⟨inv, hcm⟩ := pre
      have hcv : country ∈ V0 := (inv.cover country).mpr (Or.inr hcm)
      have hlen1 : (st.unassigned.erase country).length
          = st.unassigned.length - 1 := List.length_erase_of_mem hcm
      have hlenpos : 1 ≤ st.unassigned.length := List.length_pos.mpr
        (fun h => by rw [h] at hcm; simp at hcm)
      simp only [run] at hrun
      split at hrun
      · simp only [Option.some.injEq, Prod.mk.injEq] at hrun
        obtain ⟨hr, hst, hk⟩ := hrun
        subst hst
        refine ⟨inv, Nat.le_refl _, ?_⟩
        intro a ha
        rw [← hr] at ha
        cases ha
      · rename_i color hcolor
        have hcolmem : color ∈ st.domains := by
          have := List.getElem?_eq_some.mp hcolor
          obtain ⟨hlt, hg⟩ := this
          rw [← hg]
          exact List.getElem_mem hlt
        split at hrun
        · rename_i hadj
          have inv1 : InvS G V0 D0 ⟨dictInsert st.assignment country color,
              st.unassigned.erase country, st.domains⟩ :=
            inv_commit G V0 D0 st country color hsym inv hcm hadj hcolmem
          split at hrun
          · simp only [Option.some.injEq, Prod.mk.injEq] at hrun
            obtain ⟨hr, hst, hk⟩ := hrun
            subst hst
            refine ⟨inv1, ?_, ?_⟩
            · simp only [Mode.state]
              omega
            · intro a ha
              rw [← hr] at ha
              cases ha
          · split at hrun
            · exact absurd hrun (by simp)
            · rename_i hfc a st2 k2 hc
              have post2 := ih (.call k ⟨dictInsert st.assignment country color,
                st.unassigned.erase country, st.domains⟩) (.success a) st2 k2
                (show ModePre G V0 D0 _ from inv1) hc
              simp only [Option.some.injEq, Prod.mk.injEq] at hrun
              obtain ⟨hr, hst, hk⟩ := hrun
              subst hst
              refine ⟨post2.1, ?_, ?_⟩
              · have := post2.2.1
                simp only [Mode.state] at this ⊢
                omega
              · intro b hb
                rw [← hr] at hb
                cases hb
                exact post2.2.2 a rfl
            · rename_i hfc st2 k2 hc
              have post2 := ih (.call k ⟨dictInsert st.assignment country color,
                st.unassigned.erase country, st.domains⟩) .failure st2 k2
                (show ModePre G V0 D0 _ from inv1) hc
              obtain ⟨hcl1, hcl2, hcl3, _⟩ :=
                inv_cleanup G V0 D0 st2 country post2.1 hcv
              have post3 := ih (.loop country (i + 1) k2 (cleanup country st2))
                r st' k'
                (show ModePre G V0 D0 (.loop country (i + 1) k2 (cleanup country st2))
                  from ⟨hcl1, hcl2⟩) hrun
              refine ⟨post3.1, ?_, post3.2.2⟩
              have h2 := post2.2.1
              have h3 := post3.2.1
              simp only [Mode.state] at h2 h3 ⊢
              omega
        · rename_i hadj
          have hnk : country ∉ dKeys st.assignment := fun hh => inv.disj _ hh hcm
          have hcl : cleanup country st = st := by
            rw [cleanup, if_neg]
            intro hmm
            exact hnk ((alookup_isSome_iff _ _).mp hmm)
          rw [hcl] at hrun
          have post3 := ih (.loop country (i + 1) k st) r st' k'
            (show ModePre G V0 D0 (.loop country (i + 1) k st) from ⟨inv, hcm⟩) hrun
          exact ⟨post3.1, post3.2.1, post3.2.2⟩

/-- Fuel bound sufficient for a mode: each invocation strictly shrinks
the unassigned list and each loop advances the color index. -/
def modeBound (D0 : List String) : Mode → Nat
  | .call _ st => (D0.length + 2) * st.unassigned.length + 1
  | .loop _ i _ st =>
    (D0.length - i) + ((D0.length + 2) * (st.unassigned.length - 1) + 1) + 1

/-- With lawful shuffles, `modeBound` fuel never runs out: the search
terminates. -/
theorem run_adequate (σ : Nat → List String → List String) (G T : Table)
    (V0 D0 : List String) (hσ : SigPerm σ) (hsym : TableSymm G) :
    ∀ fuel mode, ModePre G V0 D0 mode → modeBound D0 mode ≤ fuel →
      run σ G T fuel mode ≠ none := by
  intro fuel
  induction fuel with
  | zero =>
    intro mode pre hb
    exfalso
    cases mode <;> simp [modeBound] at hb
  | succ fuel ih =>
    intro mode pre hb
    cases mode with
    | call k st =>
      simp only [run]
      split
      · simp
      · rename_i hemp
        cases hm : mrv T st.unassigned st.domains st.assignment with
        | none =>
          exfalso
          rw [mrv_eq_none_iff] at hm
          rw [hm] at hemp
          simp at hemp
        | some country =>
          have hcm : country ∈ st.unassigned := mrv_mem T _ _ _ _ hm
          have pre4 : ModePre G V0 D0
              (.loop country 0 (k + 1) { st with domains := σ k st.domains }) :=
            ⟨⟨pre.nodupU, pre.nodupK, pre.cover, pre.disj, pre.vals,
              (hσ k st.domains).trans pre.domp, pre.gcons⟩, hcm⟩
          apply ih (.loop country 0 (k + 1) { st with domains := σ k st.domains })
            pre4
          have hn1 : 1 ≤ st.unassigned.length := List.length_pos.mpr
            (fun h => by rw [h] at hcm; simp at hcm)
          simp only [modeBound] at hb ⊢
          have hmul : (D0.length + 2) * st.unassigned.length
              = (D0.length + 2) * (st.unassigned.length - 1) + (D0.length + 2) := by
            rw [← Nat.mul_succ]
            congr 1
            omega
          omega
    | loop country i k st =>
      obtain ⟨inv, hcm⟩ := pre
      have hcv : country ∈ V0 := (inv.cover country).mpr (Or.inr hcm)
      have hn1 : 1 ≤ st.unassigned.length := List.length_pos.mpr
        (fun h => by rw [h] at hcm; simp at hcm)
      have hdlen : st.domains.length = D0.length := inv.domp.length_eq
      cases hcolor : st.domains[i]? with
      | none => simp [run, hcolor]
      | some color =>
        simp only [run, hcolor]
        have hilt : i < D0.length := by
          rw [← hdlen]
          exact (List.getElem?_eq_some.mp hcolor).1
        have hcolmem : color ∈ st.domains := by
          obtain ⟨hlt, hg⟩ := List.getElem?_eq_some.mp hcolor
          rw [← hg]
          exact List.getElem_mem hlt
        by_cases hadj : adjacent_c_constraint country color G st.assignment = true
        · rw [if_pos hadj]
          have inv1 : InvS G V0 D0 ⟨dictInsert st.assignment country color,
              st.unassigned.erase country, st.domains⟩ :=
            inv_commit G V0 D0 st country color hsym inv hcm hadj hcolmem
          have hlen1 : (st.unassigned.erase country).length
              = st.unassigned.length - 1 := List.length_erase_of_mem hcm
          split
          · simp
          · have hchild : run σ G T fuel (.call k ⟨dictInsert st.assignment country color,
                st.unassigned.erase country, st.domains⟩) ≠ none := by
              apply ih (.call k ⟨dictInsert st.assignment country color,
                st.unassigned.erase country, st.domains⟩)
                (show ModePre G V0 D0 _ from inv1)
              simp only [modeBound] at hb ⊢
              simp only [hlen1]
              omega
            cases hc : run σ G T fuel (.call k ⟨dictInsert st.assignment country color,
                st.unassigned.erase country, st.domains⟩) with
            | none => exact absurd hc hchild
            | some out =>
              obtain ⟨r2, st2, k2⟩ := out
              cases r2 with
              | success a => simp
              | failure =>
                have post2 := run_post σ G T V0 D0 hσ hsym fuel
                  (.call k ⟨dictInsert st.assignment country color,
                    st.unassigned.erase country, st.domains⟩) .failure st2 k2
                  (show ModePre G V0 D0 _ from inv1) hc
                obtain ⟨hcl1, hcl2, hcl3, _⟩ :=
                  inv_cleanup G V0 D0 st2 country post2.1 hcv
                apply ih (.loop country (i + 1) k2 (cleanup country st2))
                  (show ModePre G V0 D0 (.loop country (i + 1) k2 (cleanup country st2))
                    from ⟨hcl1, hcl2⟩)
                have hu2 : st2.unassigned.length ≤ st.unassigned.length - 1 := by
                  have := post2.2.1
                  simp only [Mode.state] at this
                  omega
                simp only [modeBound] at hb ⊢
                have hu3 : (cleanup country st2).unassigned.length
                    ≤ st.unassigned.length := by omega
                have hmul : (D0.length + 2) * ((cleanup country st2).unassigned.length - 1)
                    ≤ (D0.length + 2) * (st.unassigned.length - 1) :=
                  Nat.mul_le_mul_left _ (by omega)
                omega
        · rw [if_neg hadj]
          have hnk : country ∉ dKeys st.assignment := fun hh => inv.disj _ hh hcm
          have hcl : cleanup country st = st := by
            rw [cleanup, if_neg]
            intro hmm
            exact hnk ((alookup_isSome_iff _ _).mp hmm)
          rw [hcl]
          apply ih (.loop country (i + 1) k st)
            (show ModePre G V0 D0 (.loop country (i + 1) k st) from ⟨inv, hcm⟩)
          simp only [modeBound] at hb ⊢
          omega

/-! ### Top-level consequences for `bts` -/

theorem inv_init (G : Table) (vars doms : List String) (hnd : vars.Nodup) :
    InvS G vars doms ⟨[], vars, doms⟩ := by
  refine ⟨hnd, by simp [dKeys], ?_, ?_, ?_, List.Perm.refl _, ?_⟩
  · intro v
    simp
  · intro v hv
    simp [dKeys] at hv
  · intro p hp
    simp at hp
  · intro u v c _ _ hu
    simp [alookup] at hu

/-- Soundness bundle for `bts`: whatever it returns satisfies the search
invariant, and success carries its own final assignment with an empty
unassigned list. -/
theorem bts_post (σ : Nat → List String → List String) (G : Table) (csp : CSP)
    (hσ : SigPerm σ) (hsym : TableSymm G) (hnd : csp.vars.Nodup)
    (r : BTResult) (st' : SState) (k' : Nat)
    (h : bts σ G csp = some (r, st', k')) :
    InvS G csp.vars csp.domains st' ∧
      (∀ a, r = .success a → a = st'.assignment ∧ st'.unassigned = []) := by
  have post := run_post σ G csp.neighbors_dict csp.vars csp.domains hσ hsym
    (btsFuel csp) (.call 0 ⟨[], csp.vars, csp.domains⟩) r st' k'
    (show ModePre G csp.vars csp.domains (.call 0 ⟨[], csp.vars, csp.domains⟩)
      from inv_init G csp.vars csp.domains hnd) h
  exact ⟨post.1, post.2.2⟩

/-- Totality of `bts`: with lawful shuffles the fuel bound suffices. -/
theorem bts_total (σ : Nat → List String → List String) (G : Table) (csp : CSP)
    (hσ : SigPerm σ) (hsym : TableSymm G) (hnd : csp.vars.Nodup) :
    bts σ G csp ≠ none := by
  apply run_adequate σ G csp.neighbors_dict csp.vars csp.domains hσ hsym
    (btsFuel csp) (.call 0 ⟨[], csp.vars, csp.domains⟩)
    (show ModePre G csp.vars csp.domains (.call 0 ⟨[], csp.vars, csp.domains⟩)
      from inv_init G csp.vars csp.domains hnd)
  simp [modeBound, btsFuel]

/-! ### From a successful search to a decidable satisfiability witness -/

theorem dKeys_graph (g : String → String) (vars : List String) :
    dKeys (vars.map fun v => (v, g v)) = vars := by
  induction vars with
  | nil => rfl
  | cons u vs ih => simp only [List.map_cons, dKeys_cons, ih]

theorem alookup_graph (g : String → String) (vars : List String) (v : String)
    (hv : v ∈ vars) : alookup (vars.map fun v => (v, g v)) v = some (g v) := by
  induction vars with
  | nil => simp at hv
  | cons u vs ih =>
    by_cases huv : u = v
    · subst huv
      simp [alookup]
    · rcases List.mem_cons.mp hv with h | h
      · exact absurd h.symm huv
      · simp only [List.map_cons, alookup, if_neg huv]
        exact ih h

theorem alookup_graph_none (g : String → String) (vars : List String) (v : String)
    (hv : v ∉ vars) : alookup (vars.map fun v => (v, g v)) v = none := by
  rw [alookup_eq_none_iff, dKeys_graph]
  exact hv

theorem graph_mem_assignsAll (vars doms : List String) (g : String → String)
    (hg : ∀ v ∈ vars, g v ∈ doms) :
    (vars.map fun v => (v, g v)) ∈ assignsAll vars doms := by
  induction vars with
  | nil => simp [assignsAll]
  | cons u vs ih =>
    simp only [assignsAll, List.map_cons]
    apply List.mem_flatMap.mpr
    refine ⟨vs.map fun v => (v, g v), ih (fun v hv => hg v (List.mem_cons_of_mem _ hv)), ?_⟩
    apply List.mem_map.mpr
    exact ⟨g u, hg u (List.mem_cons_self _ _), rfl⟩

/-- A successful `bts` run yields a decidable satisfiability witness for
the table `G` that judged its commits. -/
theorem bts_success_satisfiable (σ : Nat → List String → List String)
    (G : Table) (vars doms : List String) (hσ : SigPerm σ) (hsym : TableSymm G)
    (hnd : vars.Nodup) (a : List (String × String)) (st' : SState) (k' : Nat)
    (h : bts σ G ⟨vars, doms, G⟩ = some (.success a, st', k')) :
    existsSolutionB vars doms G = true := by
  obtain ⟨inv, hsucc⟩ := bts_post σ G ⟨vars, doms, G⟩ hσ hsym hnd _ st' k' h
  obtain ⟨rfl, hun⟩ := hsucc a rfl
  have hcomp : ∀ v ∈ vars, ∃ c, alookup st'.assignment v = some c := by
    intro v hv
    rcases (inv.cover v).mp hv with h1 | h1
    · exact Option.isSome_iff_exists.mp ((alookup_isSome_iff _ _).mpr h1)
    · rw [hun] at h1
      simp at h1
  set g : String → String := fun v => (alookup st'.assignment v).getD "" with hgdef
  have hg : ∀ v ∈ vars, alookup st'.assignment v = some (g v) := by
    intro v hv
    obtain ⟨c, hc⟩ := hcomp v hv
    rw [hc, hgdef]
    simp [hc]
  have hgd : ∀ v ∈ vars, g v ∈ doms := by
    intro v hv
    exact inv.vals _ (alookup_mem _ _ _ (hg v hv))
  apply List.any_eq_true.mpr
  refine ⟨vars.map fun v => (v, g v), graph_mem_assignsAll vars doms g hgd, ?_⟩
  apply List.all_eq_true.mpr
  intro p hp
  obtain ⟨v, hv, rfl⟩ := List.mem_map.mp hp
  apply List.all_eq_true.mpr
  intro nb hnb
  by_cases hne : nb = v
  · simp [hne]
  · apply Bool.or_eq_true_iff.mpr
    right
    by_cases hnv : nb ∈ vars
    · rw [alookup_graph g vars nb hnv]
      have := inv.gcons v nb (g v) (fun h2 => hne h2.symm) hnb (hg v hv)
      rw [hg nb hnv] at this
      simp only [Bool.not_eq_true']
      apply beq_eq_false_iff_ne.mpr
      intro h2
      apply this
      rw [← h2]
    · rw [alookup_graph_none g vars nb hnv]
      simp

/-! ### The mrv scan returns the first minimum -/

theorem find?_congr (p q : String → Bool) :
    ∀ l : List String, (∀ x ∈ l, p x = q x) → l.find? p = l.find? q := by
  intro l
  induction l with
  | nil => intro _; rfl
  | cons a t ih =>
    intro h
    have ha := h a (List.mem_cons_self _ _)
    by_cases hp : p a = true
    · rw [List.find?_cons_of_pos _ hp, List.find?_cons_of_pos _ (ha ▸ hp)]
    · have hq : ¬ q a = true := fun hh => hp (ha ▸ hh)
      rw [List.find?_cons_of_neg _ hp, List.find?_cons_of_neg _ hq]
      exact ih fun x hx => h x (List.mem_cons_of_mem _ hx)

theorem find?_head_pos (p : String → Bool) (a : String) (l : List String)
    (h : p a = true) : (a :: l).find? p = some a := by
  simp [List.find?, h]

theorem find?_head_neg (p : String → Bool) (a : String) (l : List String)
    (h : p a = false) : (a :: l).find? p = l.find? p := by
  simp [List.find?, h]

theorem minFold_eq_find? (f : String → Nat) :
    ∀ (l : List String) (b : String),
      some (minFold f l (b, f b)).1
        = (b :: l).find? fun v => (b :: l).all fun w => decide (f v ≤ f w) := by
  intro l
  induction l with
  | nil =>
    intro b
    simp [minFold, List.find?]
  | cons v t ih =>
    intro b
    by_cases hv : f v < f b
    · have he : minFold f (v :: t) (b, f b) = minFold f t (v, f v) := by
        simp only [minFold, List.foldl_cons, if_pos hv]
      rw [he, ih v]
      have hPb : ((b :: v :: t).all fun w => decide (f b ≤ f w)) = false := by
        apply Bool.eq_false_iff.mpr
        intro hall
        have := List.all_eq_true.mp hall v (by simp)
        simp at this
        omega
      rw [find?_head_neg (fun x => (b :: v :: t).all fun w => decide (f x ≤ f w))
        b (v :: t) hPb]
      apply find?_congr
      intro x hx
      by_cases hPv : ((v :: t).all fun w => decide (f x ≤ f w)) = true
      · have hxv : f x ≤ f v := by
          have := List.all_eq_true.mp hPv v (by simp)
          simpa using this
        have hfull : ((b :: v :: t).all fun w => decide (f x ≤ f w)) = true := by
          apply List.all_eq_true.mpr
          intro w hw
          rcases List.mem_cons.mp hw with rfl | hw
          · simp
            omega
          · exact List.all_eq_true.mp hPv w hw
        rw [hPv, hfull]
      · have h1 : ((v :: t).all fun w => decide (f x ≤ f w)) = false :=
          Bool.eq_false_iff.mpr hPv
        have h2 : ((b :: v :: t).all fun w => decide (f x ≤ f w)) = false := by
          rcases List.all_eq_false.mp h1 with ⟨w, hw, hwf⟩
          exact List.all_eq_false.mpr ⟨w, List.mem_cons_of_mem _ hw, hwf⟩
        rw [h1, h2]
    · have hbv : f b ≤ f v := Nat.le_of_not_lt hv
      have he : minFold f (v :: t) (b, f b) = minFold f t (b, f b) := by
        simp only [minFold, List.foldl_cons, if_neg hv]
      rw [he, ih b]
      by_cases hPb : ((b :: t).all fun w => decide (f b ≤ f w)) = true
      · have hPb2 : ((b :: v :: t).all fun w => decide (f b ≤ f w)) = true := by
          apply List.all_eq_true.mpr
          intro w hw
          rcases List.mem_cons.mp hw with rfl | hw
          · simp
          · rcases List.mem_cons.mp hw with rfl | hw
            · simp
              omega
            · exact List.all_eq_true.mp hPb w (List.mem_cons_of_mem _ hw)
        rw [find?_head_pos (fun x => (b :: t).all fun w => decide (f x ≤ f w))
          b t hPb]
        rw [find?_head_pos (fun x => (b :: v :: t).all fun w => decide (f x ≤ f w))
          b (v :: t) hPb2]
      · have hPbf : ((b :: t).all fun w => decide (f b ≤ f w)) = false :=
          Bool.eq_false_iff.mpr hPb
        have hPb2 : ((b :: v :: t).all fun w => decide (f b ≤ f w)) = false := by
          apply Bool.eq_false_iff.mpr
          intro hall
          apply hPb
          apply List.all_eq_true.mpr
          intro w hw
          rcases List.mem_cons.mp hw with rfl | hw
          · simp
          · exact List.all_eq_true.mp hall w
              (List.mem_cons_of_mem _ (List.mem_cons_of_mem _ hw))
        rw [find?_head_neg (fun x => (b :: t).all fun w => decide (f x ≤ f w))
          b t hPbf]
        rw [find?_head_neg (fun x => (b :: v :: t).all fun w => decide (f x ≤ f w))
          b (v :: t) hPb2]
        have hPv : ((b :: v :: t).all fun w => decide (f v ≤ f w)) = false := by
          apply Bool.eq_false_iff.mpr
          intro hall
          have hvb : f v ≤ f b := by
            have := List.all_eq_true.mp hall b (by simp)
            simpa using this
          apply hPb
          apply List.all_eq_true.mpr
          intro w hw
          have hwmem : w ∈ b :: v :: t := by
            rcases List.mem_cons.mp hw with rfl | hw
            · simp
            · simp [hw]
          have hwf := List.all_eq_true.mp hall w hwmem
          simp at hwf ⊢
          omega
        rw [find?_head_neg (fun x => (b :: v :: t).all fun w => decide (f x ≤ f w))
          v t hPv]
        apply find?_congr
        intro x hx
        by_cases hPx : ((b :: t).all fun w => decide (f x ≤ f w)) = true
        · have hxb : f x ≤ f b := by
            have := List.all_eq_true.mp hPx b (by simp)
            simpa using this
          have hfull : ((b :: v :: t).all fun w => decide (f x ≤ f w)) = true := by
            apply List.all_eq_true.mpr
            intro w hw
            rcases List.mem_cons.mp hw with rfl | hw
            · simp
              omega
            · rcases List.mem_cons.mp hw with rfl | hw
              · simp
                omega
              · exact List.all_eq_true.mp hPx w (List.mem_cons_of_mem _ hw)
          rw [hPx, hfull]
        · have h1 : ((b :: t).all fun w => decide (f x ≤ f w)) = false :=
            Bool.eq_false_iff.mpr hPx
          have h2 : ((b :: v :: t).all fun w => decide (f x ≤ f w)) = false := by
            rcases List.all_eq_false.mp h1 with ⟨w, hw, hwf⟩
            apply List.all_eq_false.mpr
            rcases List.mem_cons.mp hw with rfl | hw
            · exact ⟨w, by simp, hwf⟩
            · exact ⟨w, by simp [hw], hwf⟩
          rw [h1, h2]

theorem mrv_eq_first_min (T : Table) (u doms : List String)
    (assignment : List (String × String)) (hne : u ≠ []) :
    mrv T u doms assignment
      = u.find? fun v => u.all fun w =>
          decide (pvCount T doms assignment v ≤ pvCount T doms assignment w) := by
  match u with
  | [] => exact absurd rfl hne
  | u0 :: rest =>
    rw [mrv_eq_minFold]
    have hstep : minFold (pvCount T doms assignment) (u0 :: rest)
        (u0, pvCount T doms assignment u0)
        = minFold (pvCount T doms assignment) rest
          (u0, pvCount T doms assignment u0) := by
      simp [minFold, List.foldl_cons, Nat.lt_irrefl]
    rw [hstep]
    exact minFold_eq_find? (pvCount T doms assignment) rest u0

/-! ### Table and validator lemmas -/

theorem contains_true_iff (l : List String) (a : String) :
    l.contains a = true ↔ a ∈ l := by
  induction l with
  | nil => simp
  | cons b t ih =>
    by_cases hab : a = b
    · subst hab
      simp
    · simp [List.contains_cons, hab, ih]

theorem ddGet_fst (t : Table) (k : String) : (ddGet t k).1 = tableGet t k := by
  induction t with
  | nil => rfl
  | cons p t2 ih =>
    obtain ⟨a, l⟩ := p
    by_cases h : a = k
    · simp [ddGet, tableGet, h]
    · simp [ddGet, tableGet, h, ih]

theorem ddGet_snd_of_mem (t : Table) (k : String) (h : tableMem t k = true) :
    (ddGet t k).2 = t := by
  induction t with
  | nil => simp [tableMem] at h
  | cons p t2 ih =>
    obtain ⟨a, l⟩ := p
    by_cases hak : a = k
    · simp [ddGet, hak]
    · have h2 : tableMem t2 k = true := by
        rw [tableMem, Bool.or_eq_true] at h
        rcases h with h | h
        · exact absurd (beq_iff_eq.mp h) hak
        · exact h
      simp [ddGet, hak, ih h2]

theorem tableGet_ddGet_snd (t : Table) (k x : String) :
    tableGet (ddGet t k).2 x = tableGet t x := by
  induction t with
  | nil =>
    by_cases h : k = x
    · simp [ddGet, tableGet, h]
    · simp [ddGet, tableGet, h]
  | cons p t2 ih =>
    obtain ⟨a, l⟩ := p
    by_cases hak : a = k
    · have hdd : ddGet ((a, l) :: t2) k = (l, (a, l) :: t2) := by
        simp [ddGet, hak]
      rw [hdd]
    · have hdd : ddGet ((a, l) :: t2) k
          = ((ddGet t2 k).1, (a, l) :: (ddGet t2 k).2) := by
        simp [ddGet, hak]
      rw [hdd]
      by_cases hax : a = x
      · simp [tableGet, hax]
      · simp [tableGet, hax, ih]

theorem tableGet_mem_or (t : Table) (a : String) :
    tableGet t a = [] ∨ (a, tableGet t a) ∈ t := by
  induction t with
  | nil => left; rfl
  | cons p t2 ih =>
    obtain ⟨b, l⟩ := p
    by_cases hba : b = a
    · subst hba
      right
      simp [tableGet]
    · rcases ih with h | h
      · left
        rw [tableGet, if_neg hba]
        exact h
      · right
        rw [tableGet, if_neg hba]
        exact List.mem_cons_of_mem _ h

theorem tableSymm_of_B (t : Table) (h : tableSymmB t = true) : TableSymm t := by
  intro a b hb
  rcases tableGet_mem_or t a with he | he
  · rw [he] at hb
    simp at hb
  · have h2 := List.all_eq_true.mp (List.all_eq_true.mp h (a, tableGet t a) he) b hb
    simp only at h2
    exact (contains_true_iff _ _).mp h2

theorem allValuesSub_spec (t : Table) (cs : List String)
    (h : allValuesSubB t cs = true) :
    ∀ k nb, nb ∈ tableGet t k → nb ∈ cs := by
  intro k nb hnb
  rcases tableGet_mem_or t k with he | he
  · rw [he] at hnb
    simp at hnb
  · have h2 := List.all_eq_true.mp (List.all_eq_true.mp h (k, tableGet t k) he) nb hnb
    simp only at h2
    exact (contains_true_iff _ _).mp h2

theorem checkNbrs_ne_keyError (result : List (String × String)) (key value : String) :
    ∀ lst : List String, (∀ nb ∈ lst, (alookup result nb).isSome = true) →
      ∀ c, checkNbrs result key value lst ≠ some (.keyError c) := by
  intro lst
  induction lst with
  | nil =>
    intro _ c
    simp [checkNbrs]
  | cons nb rest ih =>
    intro h c
    cases hl : alookup result nb with
    | none =>
      exfalso
      have := h nb (List.mem_cons_self _ _)
      rw [hl] at this
      simp at this
    | some w =>
      simp only [checkNbrs, hl]
      by_cases hw : w = value
      · rw [if_pos hw]
        simp
      · rw [if_neg hw]
        exact ih (fun x hx => h x (List.mem_cons_of_mem _ hx)) c

theorem checkNbrs_none (result : List (String × String)) (key value : String) :
    ∀ lst : List String,
      (∀ nb ∈ lst, (alookup result nb).isSome = true ∧
        ¬ alookup result nb = some value) →
      checkNbrs result key value lst = none := by
  intro lst
  induction lst with
  | nil => intro _; rfl
  | cons nb rest ih =>
    intro h
    obtain ⟨hs, hv⟩ := h nb (List.mem_cons_self _ _)
    cases hl : alookup result nb with
    | none =>
      rw [hl] at hs
      simp at hs
    | some w =>
      have hw : ¬ w = value := by
        intro hh
        apply hv
        rw [hl, hh]
      simp only [checkNbrs, hl, if_neg hw]
      exact ih fun x hx => h x (List.mem_cons_of_mem _ hx)

theorem checkItems_ne_keyError (cs cls : List String)
    (result : List (String × String))
    (hall : ∀ c ∈ cs, dictMem result c = true) :
    ∀ (rest : List (String × String)) (nbrs : Table),
      (∀ k nb, nb ∈ tableGet nbrs k → nb ∈ cs) →
      ∀ c, (checkItems cs cls result rest nbrs).1 ≠ some (.keyError c) := by
  intro rest
  induction rest with
  | nil =>
    intro nbrs _ c
    simp [checkItems]
  | cons p rest2 ih =>
    obtain ⟨key, value⟩ := p
    intro nbrs hsub c
    simp only [checkItems]
    by_cases h1 : cs.contains key = true
    · rw [h1]
      by_cases h2 : cls.contains value = true
      · rw [h2]
        simp only [Bool.not_true, Bool.false_eq_true, if_false]
        have hget : (ddGet nbrs key).1 = tableGet nbrs key := ddGet_fst nbrs key
        cases hn : checkNbrs result key value (ddGet nbrs key).1 with
        | some e =>
          simp only [hn]
          intro hh
          apply checkNbrs_ne_keyError result key value (ddGet nbrs key).1 ?_ c
          · rw [hn]
            simp only [Option.some.injEq] at hh
            rw [hh]
          · rw [hget]
            intro nb hnb
            have := hsub key nb hnb
            exact (alookup_isSome_iff _ _).mpr ((alookup_isSome_iff _ _).mp
              (hall nb this))
        | none =>
          simp only [hn]
          apply ih (ddGet nbrs key).2 ?_ c
          intro k2 nb hnb
          rw [tableGet_ddGet_snd] at hnb
          exact hsub k2 nb hnb
      · have h2f : cls.contains value = false := Bool.eq_false_iff.mpr h2
        rw [h2f]
        simp
    · have h1f : cs.contains key = false := Bool.eq_false_iff.mpr h1
      rw [h1f]
      simp

theorem checkItems_snd (cs cls : List String) (result : List (String × String)) :
    ∀ (rest : List (String × String)) (nbrs : Table),
      (∀ key ∈ cs, tableMem nbrs key = true) →
      (checkItems cs cls result rest nbrs).2 = nbrs := by
  intro rest
  induction rest with
  | nil => intro nbrs _; rfl
  | cons p rest2 ih =>
    obtain ⟨key, value⟩ := p
    intro nbrs hmem
    simp only [checkItems]
    by_cases h1 : cs.contains key = true
    · rw [h1]
      by_cases h2 : cls.contains value = true
      · rw [h2]
        simp only [Bool.not_true, Bool.false_eq_true, if_false]
        have hdd : (ddGet nbrs key).2 = nbrs :=
          ddGet_snd_of_mem nbrs key (hmem key ((contains_true_iff _ _).mp h1))
        cases hn : checkNbrs result key value (ddGet nbrs key).1 with
        | some e =>
          simp only [hn]
          exact hdd
        | none =>
          simp only [hn]
          rw [hdd]
          exact ih nbrs hmem
      · have h2f : cls.contains value = false := Bool.eq_false_iff.mpr h2
        rw [h2f]
        simp
    · have h1f : cs.contains key = false := Bool.eq_false_iff.mpr h1
      rw [h1f]
      simp

theorem checkItems_none (cs cls : List String) (result : List (String × String))
    (hall : ∀ c ∈ cs, dictMem result c = true) :
    ∀ (rest : List (String × String)) (nbrs : Table),
      (∀ k nb, nb ∈ tableGet nbrs k → nb ∈ cs) →
      (∀ p ∈ rest, cs.contains p.1 = true ∧ cls.contains p.2 = true ∧
        ∀ nb ∈ tableGet nbrs p.1, ¬ alookup result nb = some p.2) →
      (checkItems cs cls result rest nbrs).1 = none := by
  intro rest
  induction rest with
  | nil => intro nbrs _ _; rfl
  | cons p rest2 ih =>
    obtain ⟨key, value⟩ := p
    intro nbrs hsub hrest
    obtain ⟨h1, h2, h3⟩ := hrest (key, value) (List.mem_cons_self _ _)
    simp only [checkItems, h1, h2, Bool.not_true, Bool.false_eq_true, if_false]
    have hget : (ddGet nbrs key).1 = tableGet nbrs key := ddGet_fst nbrs key
    have hn : checkNbrs result key value (ddGet nbrs key).1 = none := by
      apply checkNbrs_none
      rw [hget]
      intro nb hnb
      refine ⟨(alookup_isSome_iff _ _).mpr ((alookup_isSome_iff _ _).mp
        (hall nb (hsub key nb hnb))), h3 nb hnb⟩
    simp only [hn]
    apply ih (ddGet nbrs key).2
    · intro k2 nb hnb
      rw [tableGet_ddGet_snd] at hnb
      exact hsub k2 nb hnb
    · intro q hq
      obtain ⟨g1, g2, g3⟩ := hrest q (List.mem_cons_of_mem _ hq)
      refine ⟨g1, g2, ?_⟩
      intro nb hnb
      rw [tableGet_ddGet_snd] at hnb
      exact g3 nb hnb

theorem check_ne_keyError (result : List (String × String)) (cs cls : List String)
    (nbrs : Table) (hsub : allValuesSubB nbrs cs = true) :
    ∀ c, (check result cs cls nbrs).1 ≠ some (.keyError c) := by
  intro c
  rw [check]
  cases hf : cs.find? (fun country => !(dictMem result country)) with
  | some country => simp
  | none =>
    simp only
    have hall : ∀ x ∈ cs, dictMem result x = true := by
      intro x hx
      have := List.find?_eq_none.mp hf x hx
      simpa using this
    exact checkItems_ne_keyError cs cls result hall result nbrs
      (allValuesSub_spec nbrs cs hsub) c

theorem check_valid_none (result : List (String × String)) (cs cls : List String)
    (nbrs : Table) (hsub : allValuesSubB nbrs cs = true)
    (hv : validCompleteB result cs cls nbrs = true) :
    (check result cs cls nbrs).1 = none := by
  rw [validCompleteB, Bool.and_eq_true] at hv
  obtain ⟨hv1, hv2⟩ := hv
  have hall : ∀ c ∈ cs, dictMem result c = true := List.all_eq_true.mp hv1
  rw [check]
  cases hf : cs.find? (fun country => !(dictMem result country)) with
  | some country =>
    exfalso
    have := List.find?_some hf
    rw [hall country (List.mem_of_find?_eq_some hf)] at this
    simp at this
  | none =>
    simp only
    apply checkItems_none cs cls result hall result nbrs
      (allValuesSub_spec nbrs cs hsub)
    intro p hp
    have := List.all_eq_true.mp hv2 p hp
    rw [Bool.and_eq_true, Bool.and_eq_true] at this
    obtain ⟨⟨g1, g2⟩, g3⟩ := this
    refine ⟨g1, g2, ?_⟩
    intro nb hnb
    have := List.all_eq_true.mp g3 nb hnb
    simp only [Bool.not_eq_true'] at this
    intro hh
    rw [hh] at this
    simp at this

theorem check_snd (result : List (String × String)) (cs cls : List String)
    (nbrs : Table) (hmem : ∀ key ∈ cs, tableMem nbrs key = true) :
    (check result cs cls nbrs).2 = nbrs := by
  rw [check]
  cases hf : cs.find? (fun country => !(dictMem result country)) with
  | some country => rfl
  | none =>
    simp only
    apply checkItems_snd cs cls result result nbrs
    intro key hk
    exact hmem key hk

/-! ### Claim theorems -/

/-- Claim C1 (evaluation at the failing input): on the instance with
variables A and B, conflict A-B and the single color c, forward checking
detects that B has zero legal values right after A is committed, and
`backtrack` returns the failure marker with the tentative commit NOT
undone: the final state still maps A to c and A is missing from the
unassigned list.  Source line 115 returns before the cleanup of lines
123-125, contradicting the claim that the commit is restored before the
failure signal is returned. -/
theorem claim1_commit_not_undone :
    bts sigId tblAB ⟨["A", "B"], ["c"], tblAB⟩
      = some (.failure, ⟨[("A", "c")], ["B"], ["c"]⟩, 1) ∧
    dictMem [("A", "c")] "A" = true ∧ "A" ∉ (["B"] : List String) :=
  ⟨by decide, by decide, by decide⟩

/-- Claim C2 (counterexample): solving the one-variable instance with
domain [blue, green] under the reversal shuffle succeeds, but afterwards
the instance's domain list has been re-ordered in place to
[green, blue] and its variables list (aliased to `unassigned` by line
182) has been emptied — the Variables and Domain sequences are not
unchanged after `solve` returns. -/
theorem claim2_counterexample :
    bts sigRev tblSolo ⟨["A"], ["blue", "green"], tblSolo⟩
      = some (.success [("A", "green")],
          ⟨[("A", "green")], [], ["green", "blue"]⟩, 1) ∧
    (["green", "blue"] : List String) ≠ ["blue", "green"] ∧
    ([] : List String) ≠ ["A"] :=
  ⟨by decide, by decide, by decide⟩

/-- Claim C2 (amended): during `solve` the engine mutates the Unassigned
set and Assignment, empties or reorders the Variables sequence (aliased
to Unassigned at line 182) and reorders the Domain sequence in place via
the shuffles; but the multiset of domain values is preserved — the final
domains list is a permutation of the input domains (and the Conflict
Relation mapping is no part of the mutable search state). -/
theorem claim2_domain_multiset_preserved (σ : Nat → List String → List String)
    (G : Table) (csp : CSP) (hσ : SigPerm σ) (hsym : TableSymm G)
    (hnd : csp.vars.Nodup) (r : BTResult) (st' : SState) (k' : Nat)
    (h : bts σ G csp = some (r, st', k')) :
    st'.domains.Perm csp.domains :=
  (bts_post σ G csp hσ hsym hnd r st' k' h).1.domp

theorem claim2_witness : (["green", "blue"] : List String).Perm ["blue", "green"] :=
  claim2_domain_multiset_preserved sigRev tblSolo
    ⟨["A"], ["blue", "green"], tblSolo⟩
    (fun _ l => List.reverse_perm l)
    (tableSymm_of_B tblSolo (by decide)) (by decide)
    (.success [("A", "green")]) ⟨[("A", "green")], [], ["green", "blue"]⟩ 1
    (by decide)

/-- Claim C3 (evaluation at the failing input): the five-variable
instance with conflicts A-B, A-C, B-D, B-E, C-D, C-E, D-E and three
colors is satisfiable (decided exhaustively), the shuffle stream
`sigC3` is made of genuine permutations, yet `bts` returns the failure
marker: the missing undo on the forward-checking path (line 115) leaves
D, C and B stuck in the assignment, and the search exhausts without
reaching any of the existing solutions. -/
theorem claim3_completeness_fails :
    existsSolutionB ["A", "B", "C", "D", "E"] ["1", "2", "3"] tblC3 = true ∧
    SigPerm sigC3 ∧
    bts sigC3 tblC3 ⟨["A", "B", "C", "D", "E"], ["1", "2", "3"], tblC3⟩
      = some (.failure,
          ⟨[("D", "1"), ("C", "3"), ("B", "2")], ["E", "A"], ["1", "3", "2"]⟩, 4) := by
  refine ⟨by decide, ?_, by decide⟩
  intro k l
  by_cases h2 : k = 2
  · simp only [sigC3, if_pos h2]
    exact List.rotate_perm l 2
  · by_cases h3 : k = 3
    · simp only [sigC3, if_neg h2, if_pos h3]
      match l with
      | [] => exact List.Perm.refl _
      | [a] => exact List.Perm.refl _
      | a :: b :: t => exact List.Perm.swap a b t
    · simp only [sigC3, if_neg h2, if_neg h3]
      exact List.Perm.refl l

/-- Claim C4: soundness of `bts` for the program's configuration (the
instance's table is the module-level one, the table is symmetric, the
variable list is duplicate-free, the shuffles are permutations): if
`bts` returns an assignment, then every variable is present, every
stored value belongs to the domain, and no two distinct conflicting
variables received the same value. -/
theorem claim4_soundness (σ : Nat → List String → List String) (G : Table)
    (vars doms : List String) (hσ : SigPerm σ) (hsym : TableSymm G)
    (hnd : vars.Nodup) (a : List (String × String)) (st' : SState) (k' : Nat)
    (h : bts σ G ⟨vars, doms, G⟩ = some (.success a, st', k')) :
    (∀ v ∈ vars, ∃ c, alookup a v = some c) ∧
    (∀ p ∈ a, p.2 ∈ doms) ∧
    (∀ u v c, u ≠ v → v ∈ tableGet G u →
      alookup a u = some c → ¬ alookup a v = some c) := by
  obtain ⟨inv, hsucc⟩ := bts_post σ G ⟨vars, doms, G⟩ hσ hsym hnd _ st' k' h
  obtain ⟨rfl, hun⟩ := hsucc a rfl
  refine ⟨?_, ?_, inv.gcons⟩
  · intro v hv
    rcases (inv.cover v).mp hv with h1 | h1
    · exact Option.isSome_iff_exists.mp ((alookup_isSome_iff _ _).mpr h1)
    · rw [hun] at h1
      simp at h1
  · intro p hp
    exact inv.vals p hp

theorem claim4_witness :
    (∀ v ∈ (["A", "B"] : List String),
      ∃ c, alookup [("A", "c"), ("B", "d")] v = some c) ∧
    (∀ p ∈ [("A", "c"), ("B", "d")], p.2 ∈ (["c", "d"] : List String)) ∧
    (∀ u v c, u ≠ v → v ∈ tableGet tblAB u →
      alookup [("A", "c"), ("B", "d")] u = some c →
      ¬ alookup [("A", "c"), ("B", "d")] v = some c) :=
  claim4_soundness sigId tblAB ["A", "B"] ["c", "d"]
    (fun _ l => List.Perm.refl l) (tableSymm_of_B tblAB (by decide)) (by decide)
    [("A", "c"), ("B", "d")] ⟨[("A", "c"), ("B", "d")], [], ["c", "d"]⟩ 2
    (by decide)

/-- Claim C5 (counterexample to the claimed check order): on a complete
assignment whose first entry (Argentina, blue) already violates a
constraint against its neighbor Bolivia while a later entry carries the
unknown color purple, the source's `check` raises the constraint
violation, whereas the strictly-ordered validator of the spec (§4.5:
all of check 2 before check 3) raises the unknown-color condition — the
checks are not performed in the claimed order. -/
theorem claim5_order_counterexample :
    (check resultMixed countries colors neighbors_dict).1
      = some (.constraintViolation "Argentina" "Bolivia") ∧
    checkSpecOrdered resultMixed countries colors neighbors_dict
      = some (.colorNotFound "purple") ∧
    (check resultMixed countries colors neighbors_dict).1
      ≠ checkSpecOrdered resultMixed countries colors neighbors_dict :=
  ⟨by decide, by decide, by decide⟩

/-- Claim C5 (amended): with the original variable, color and neighbor
tables, `check` raises exactly one of the four named conditions or
returns silently — in particular the `KeyError` branch of line 145 is
unreachable — and it returns silently on every complete valid
assignment.  Check (1) is performed first over all variables, but
checks (2) and (3) are interleaved per assignment entry rather than
performed in the spec's strict order (see the counterexample). -/
theorem claim5_check_behavior :
    (∀ (result : List (String × String)) (c : String),
      (check result countries colors neighbors_dict).1 ≠ some (.keyError c)) ∧
    (∀ result : List (String × String),
      validCompleteB result countries colors neighbors_dict = true →
      (check result countries colors neighbors_dict).1 = none) :=
  ⟨fun result c =>
    check_ne_keyError result countries colors neighbors_dict (by decide) c,
   fun result hv =>
    check_valid_none result countries colors neighbors_dict (by decide) hv⟩

theorem claim5_witness :
    (check resultValid countries colors neighbors_dict).1 = none :=
  claim5_check_behavior.2 resultValid (by decide)

/-- Claim C6: for every non-empty unassigned list, `mrv` returns the
first variable, in the list's iteration order, whose legal-value count
is minimal over all unassigned variables (strict-improvement scan keeps
the earliest minimum).  Determinism across repeated calls with fixed
inputs is immediate: the model of `mrv` is a pure function of the
unassigned list, the domains and the assignment. -/
theorem claim6_mrv_first_minimum (T : Table) (u doms : List String)
    (assignment : List (String × String)) (hne : u ≠ []) :
    mrv T u doms assignment
      = u.find? fun v => u.all fun w =>
          decide (pvCount T doms assignment v ≤ pvCount T doms assignment w) :=
  mrv_eq_first_min T u doms assignment hne

theorem claim6_witness :
    mrv tblAB ["A", "B"] ["c"] [("A", "c")]
      = (["A", "B"].find? fun v => ["A", "B"].all fun w =>
          decide (pvCount tblAB ["c"] [("A", "c")] v
            ≤ pvCount tblAB ["c"] [("A", "c")] w)) ∧
    mrv tblAB ["A", "B"] ["c"] [("A", "c")] = some "B" :=
  ⟨claim6_mrv_first_minimum tblAB ["A", "B"] ["c"] [("A", "c")] (by decide),
   by decide⟩

/-- Claim C7: every unsatisfiable instance (in the program's
configuration: symmetric table shared with the module level,
duplicate-free variables, lawful shuffles) terminates — the fuel bound
is proved sufficient — and returns the distinguished failure marker,
never an assignment; the model is total, so no exception either. -/
theorem claim7_unsat_fails (σ : Nat → List String → List String) (G : Table)
    (vars doms : List String) (hσ : SigPerm σ) (hsym : TableSymm G)
    (hnd : vars.Nodup) (hunsat : existsSolutionB vars doms G = false) :
    ∃ st' k', bts σ G ⟨vars, doms, G⟩ = some (.failure, st', k') := by
  cases hb : bts σ G ⟨vars, doms, G⟩ with
  | none => exact absurd hb (bts_total σ G ⟨vars, doms, G⟩ hσ hsym hnd)
  | some out =>
    obtain ⟨r, st', k'⟩ := out
    cases r with
    | success a =>
      exfalso
      have hsat := bts_success_satisfiable σ G vars doms hσ hsym hnd a st' k' hb
      rw [hunsat] at hsat
      exact Bool.false_ne_true hsat
    | failure => exact ⟨st', k', rfl⟩

theorem claim7_witness :
    ∃ st' k', bts sigId tblTri ⟨["A", "B", "C"], ["1", "2"], tblTri⟩
      = some (.failure, st', k') :=
  claim7_unsat_fails sigId tblTri ["A", "B", "C"] ["1", "2"]
    (fun _ l => List.Perm.refl l) (tableSymm_of_B tblTri (by decide))
    (by decide) (by decide)

/-- Claim C8: `possible_values` returns exactly the domain values not
already held by a conflicting variable present in the assignment, and a
variable with an empty conflict list gets the full domain regardless of
the assignment.  The fresh-container (no aliasing with the domain master
list) part is a Python object-identity property; in the model the result
is a freshly computed filter of the domain list. -/
theorem claim8_possible_values (T : Table) (doms : List String) (country : String)
    (assignment : List (String × String)) :
    (∀ v, v ∈ possible_values T doms country assignment ↔
      (v ∈ doms ∧ ∀ nb ∈ tableGet T country, ¬ alookup assignment nb = some v)) ∧
    (tableGet T country = [] → possible_values T doms country assignment = doms) := by
  constructor
  · intro v
    rw [possible_values, List.mem_filter]
    constructor
    · intro h
      exact ⟨h.1, (adjacent_true_iff country v T assignment).mp h.2⟩
    · intro h
      exact ⟨h.1, (adjacent_true_iff country v T assignment).mpr h.2⟩
  · intro hemp
    rw [possible_values]
    apply List.filter_eq_self.mpr
    intro v _
    apply (adjacent_true_iff country v T assignment).mpr
    rw [hemp]
    intro nb hnb
    simp at hnb

theorem claim8_witness :
    possible_values tblSolo ["blue", "green"] "A" [("B", "blue")]
      = ["blue", "green"] :=
  (claim8_possible_values tblSolo ["blue", "green"] "A" [("B", "blue")]).2
    (by decide)

/-- Claim C9: with the original variable, color and neighbor tables, a
call to `check` never mutates the neighbor table (the only input a call
could mutate, through the defaultdict reads of line 144 — every country
is stored, so no read inserts), and on a valid complete assignment it
succeeds silently twice in a row, the second call running on the table
returned by the first. -/
theorem claim9_check_pure :
    (∀ result : List (String × String),
      (check result countries colors neighbors_dict).2 = neighbors_dict) ∧
    (∀ result : List (String × String),
      validCompleteB result countries colors neighbors_dict = true →
      (check result countries colors neighbors_dict).1 = none ∧
      (check result countries colors
        (check result countries colors neighbors_dict).2).1 = none) := by
  have hmem : ∀ key ∈ countries, tableMem neighbors_dict key = true := by decide
  have hsub : allValuesSubB neighbors_dict countries = true := by decide
  constructor
  · intro result
    exact check_snd result countries colors neighbors_dict hmem
  · intro result hv
    have h1 := check_valid_none result countries colors neighbors_dict hsub hv
    refine ⟨h1, ?_⟩
    rw [check_snd result countries colors neighbors_dict hmem]
    exact h1

theorem claim9_witness :
    (check resultValid countries colors neighbors_dict).1 = none ∧
    (check resultValid countries colors
      (check resultValid countries colors neighbors_dict).2).1 = none :=
  claim9_check_pure.2 resultValid (by decide)

/-- Both judgments on a neighbor pair the two tables disagree on: the
table containing the pair rejects the shared color, the other accepts. -/
theorem adjacent_tables_differ (t1 t2 : Table) (a b : String)
    (h1 : b ∈ tableGet t1 a) (h2 : b ∉ tableGet t2 a) :
    adjacent_c_constraint a "blue" t1 [(b, "blue")] = false ∧
    adjacent_c_constraint a "blue" t2 [(b, "blue")] = true := by
  constructor
  · apply Bool.eq_false_iff.mpr
    intro hall
    apply (adjacent_true_iff a "blue" t1 [(b, "blue")]).mp hall b h1
    simp [alookup]
  · apply (adjacent_true_iff a "blue" t2 [(b, "blue")]).mpr
    intro nb hnb
    have hne : ¬ b = nb := fun hh => h2 (hh ▸ hnb)
    simp [alookup, hne]

/-- Claim C10: the commit-time consistency test of the backtracking loop
(line 107) consults the module-level `neighbors_dict` global, while
`possible_values` — used by mrv and by forward checking — consults the
instance's own table; in the model `run`/`bts` take the two tables
separately, mirroring the source.  Whenever the tables disagree on a
neighbor pair the two judgments differ on a concrete assignment; and
concretely, an instance over Argentina and Bolivia whose own table has
no conflicts still fails under `bts` with a single color, because the
loop's test consults the global table even though the instance's own
`possible_values` reports blue legal for Bolivia. -/
theorem claim10_global_vs_instance_table :
    (∀ (T : Table) (a b : String),
      ¬ (b ∈ tableGet neighbors_dict a ↔ b ∈ tableGet T a) →
      ∃ (color : String) (asg : List (String × String)),
        adjacent_c_constraint a color neighbors_dict asg
          ≠ adjacent_c_constraint a color T asg) ∧
    bts sigId neighbors_dict ⟨["Argentina", "Bolivia"], ["blue"], tblNoConf⟩
      = some (.failure, ⟨[], ["Bolivia", "Argentina"], ["blue"]⟩, 2) ∧
    possible_values tblNoConf ["blue"] "Bolivia" [("Argentina", "blue")]
      = ["blue"] ∧
    adjacent_c_constraint "Bolivia" "blue" neighbors_dict
      [("Argentina", "blue")] = false := by
  refine ⟨?_, by decide, by decide, by decide⟩
  intro T a b hne
  by_cases hg : b ∈ tableGet neighbors_dict a
  · have ht : b ∉ tableGet T a := fun hh => hne ⟨fun _ => hh, fun _ => hg⟩
    obtain ⟨e1, e2⟩ := adjacent_tables_differ neighbors_dict T a b hg ht
    refine ⟨"blue", [(b, "blue")], ?_⟩
    rw [e1, e2]
    simp
  · have ht : b ∈ tableGet T a := by
      by_contra hh
      exact hne ⟨fun h2 => absurd h2 hg, fun h2 => absurd h2 hh⟩
    obtain ⟨e1, e2⟩ := adjacent_tables_differ T neighbors_dict a b ht hg
    refine ⟨"blue", [(b, "blue")], ?_⟩
    rw [e1, e2]
    simp

theorem claim10_witness :
    (∃ (color : String) (asg : List (String × String)),
      adjacent_c_constraint "Argentina" color neighbors_dict asg
        ≠ adjacent_c_constraint "Argentina" color tblNoConf asg) ∧
    bts sigId neighbors_dict ⟨["Argentina", "Bolivia"], ["blue"], tblNoConf⟩
      = some (.failure, ⟨[], ["Bolivia", "Argentina"], ["blue"]⟩, 2) :=
  ⟨claim10_global_vs_instance_table.1 tblNoConf "Argentina" "Bolivia" (by decide),
   claim10_global_vs_instance_table.2.1⟩

/-- Claim C4 (counterexample to the universal statement): an instance
over the variables X and Y — unknown to the module-level table, so the
loop's consistency test at line 107 accepts everything — whose own
conflict table relates X and Y, gets back from `bts` the complete
assignment mapping both X and Y to blue: two variables related by the
instance's Conflict Relation receive the same value. -/
theorem claim4_counterexample :
    ("Y" ∈ tableGet tblXY "X") ∧
    bts sigId neighbors_dict ⟨["X", "Y"], ["blue", "pink"], tblXY⟩
      = some (.success [("X", "blue"), ("Y", "blue")],
          ⟨[("X", "blue"), ("Y", "blue")], [], ["blue", "pink"]⟩, 2) ∧
    alookup [("X", "blue"), ("Y", "blue")] "X" = some "blue" ∧
    alookup [("X", "blue"), ("Y", "blue")] "Y" = some "blue" :=
  ⟨by decide, by decide, by decide, by decide⟩

/-- Claim C7 (counterexample to the universal statement): the triangle
X, Y, Z over two colors is unsatisfiable for its own conflict table, yet
`bts` — whose commit test consults the module-level table, which knows
none of X, Y, Z — returns a complete assignment rather than the failure
marker. -/
theorem claim7_counterexample :
    existsSolutionB ["X", "Y", "Z"] ["1", "2"] tblTriXYZ = false ∧
    bts sigId neighbors_dict ⟨["X", "Y", "Z"], ["1", "2"], tblTriXYZ⟩
      = some (.success [("X", "1"), ("Y", "1"), ("Z", "1")],
          ⟨[("X", "1"), ("Y", "1"), ("Z", "1")], [], ["1", "2"]⟩, 3) :=
  ⟨by decide, by decide⟩
